import Mathlib

/-!
Shallow embedding of the Real_Time_Chat_Application presence registry,
validation schemas and socket handlers.

Strings are modelled as `List Char` (JavaScript `.length` counts UTF-16
code units; every input in this development is in the basic plane, where
the two measures agree). `toLowerCase` is modelled by the ASCII
`Char.toLower`, which agrees with JavaScript on ASCII input, and
`String.prototype.trim` by stripping a fixed set of whitespace code
points from both ends.
-/

deriving instance DecidableEq for Except

namespace Chat

abbrev Str := List Char

def lowerStr (s : Str) : Str := s.map Char.toLower

/-- Whitespace code points removed by JavaScript trim (common subset). -/
def isJsWhitespace (c : Char) : Bool :=
  c = ' ' || c = '\t' || c = '\n' || c = '\r' ||
  c = '\x0b' || c = '\x0c' || c = '\u00A0' || c = '\uFEFF'

/-- String.prototype.trim: drop whitespace from both ends. -/
def trim (s : Str) : Str :=
  ((s.dropWhile isJsWhitespace).reverse.dropWhile isJsWhitespace).reverse

-- ============================================
-- Validation schemas (src/validation/schemas.ts)
-- ============================================

/-- Error classes of the zod validators; `validate` reports the first
failing check, and the checks run in declaration order. -/
inductive VErr where
  | tooShort
  | tooLong
  | invalidChars
  | emptyStr
deriving DecidableEq, Repr

/-- Characters allowed by the username regex [a-zA-Z0-9_-]. -/
def isNameChar (c : Char) : Bool :=
  (('a' ≤ c) && (c ≤ 'z')) || (('A' ≤ c) && (c ≤ 'Z')) ||
  (('0' ≤ c) && (c ≤ '9')) || c = '_' || c = '-'

/-- Characters allowed by the room regex [a-zA-Z0-9_\- ]. -/
def isRoomChar (c : Char) : Bool := isNameChar c || c = ' '

/-- usernameSchema: trim first, then min 2 / max 20 / regex on the
trimmed value. -/
def usernameSchema (raw : Str) : Except VErr Str :=
  if (trim raw).length < 2 then .error .tooShort
  else if (trim raw).length > 20 then .error .tooLong
  else if (trim raw).all isNameChar then .ok (trim raw)
  else .error .invalidChars

/-- roomSchema: min 1 / max 50 / regex on the RAW value, then trim as a
final transform (note: the bounds and the regex see the untrimmed raw
string; only the returned value is trimmed). -/
def roomSchema (raw : Str) : Except VErr Str :=
  if raw.length < 1 then .error .emptyStr
  else if raw.length > 50 then .error .tooLong
  else if raw.all isRoomChar then .ok (trim raw)
  else .error .invalidChars

def ltChar : Char := '<'
def gtChar : Char := '>'
def quotChar : Char := Char.ofNat 34
def aposChar : Char := Char.ofNat 39

def entLt : Str := ['&', 'l', 't', ';']
def entGt : Str := ['&', 'g', 't', ';']
def entQuot : Str := ['&', 'q', 'u', 'o', 't', ';']
def entApos : Str := ['&', '#', 'x', '2', '7', ';']

/-- One global single-character `String.prototype.replace(/c/g, rep)`. -/
def replaceAll (c : Char) (rep : Str) : Str → Str
  | [] => []
  | d :: s => if d = c then rep ++ replaceAll c rep s else d :: replaceAll c rep s

/-- The four chained replaces of messageSchema's sanitizing transform,
in source order: < then > then the double quote then the single quote. -/
def escapeHtml (s : Str) : Str :=
  replaceAll aposChar entApos
    (replaceAll quotChar entQuot
      (replaceAll gtChar entGt
        (replaceAll ltChar entLt s)))

/-- messageSchema: min 1 / max 1000 on the RAW value, then trim, then
HTML-escape. -/
def messageSchema (raw : Str) : Except VErr Str :=
  if raw.length < 1 then .error .emptyStr
  else if raw.length > 1000 then .error .tooLong
  else .ok (escapeHtml (trim raw))

/-- Feed a validator's accepted output back through the same validator
(used to state idempotence and its failures). -/
def revalidate (f : Str → Except VErr Str) (raw : Str) : Option (Except VErr Str) :=
  match f raw with
  | .ok t => some (f t)
  | .error _ => none

-- ============================================
-- Presence registry (src/services/user.service.ts)
-- ============================================

structure User where
  id : Str
  username : Str
  room : Str
deriving DecidableEq, Repr

/-- Association-list lookup, modelling `Map.get` (keys of a JS Map are
unique, which reachable stores maintain as an invariant). -/
def alGet (k : Str) : List (Str × α) → Option α
  | [] => none
  | (k2, v) :: rest => if k2 = k then some v else alGet k rest

/-- `Map.set`: overwrite in place if the key is present (iteration order
keeps the original position), otherwise append. -/
def alSet (k : Str) (v : α) : List (Str × α) → List (Str × α)
  | [] => [(k, v)]
  | (k2, v2) :: rest =>
    if k2 = k then (k, v) :: rest else (k2, v2) :: alSet k v rest

/-- `Map.delete`: remove the entry with the given key. -/
def alDel (k : Str) : List (Str × α) → List (Str × α)
  | [] => []
  | (k2, v2) :: rest => if k2 = k then rest else (k2, v2) :: alDel k rest

/-- InMemoryUserStore: `users` maps socket id to User in insertion
order, `usernameIndex` maps lowercased username to socket id. -/
structure Store where
  users : List (Str × User)
  usernameIndex : List (Str × Str)
deriving DecidableEq, Repr

def Store.emptyStore : Store := ⟨[], []⟩

/-- InMemoryUserStore.add. -/
def Store.add (s : Store) (u : User) : Store :=
  { users := alSet u.id u s.users
    usernameIndex := alSet (lowerStr u.username) u.id s.usernameIndex }

/-- InMemoryUserStore.findById. -/
def Store.findById (s : Store) (id : Str) : Option User := alGet id s.users

/-- InMemoryUserStore.findByUsername: `id ? this.users.get(id) :
undefined` — the empty string is falsy in JavaScript, hence the extra
guard. -/
def Store.findByUsername (s : Store) (username : Str) : Option User :=
  match alGet (lowerStr username) s.usernameIndex with
  | some id => if id = [] then none else alGet id s.users
  | none => none

/-- InMemoryUserStore.remove: returns the removed user (if any) and the
store after deleting both the user entry and its username-index entry. -/
def Store.remove (s : Store) (id : Str) : Option User × Store :=
  match alGet id s.users with
  | some u =>
    (some u,
     { users := alDel id s.users
       usernameIndex := alDel (lowerStr u.username) s.usernameIndex })
  | none => (none, s)

/-- InMemoryUserStore.getAll: `Array.from(this.users.values())`. -/
def Store.getAll (s : Store) : List User := s.users.map Prod.snd

/-- InMemoryUserStore.findByRoom: filter over all users, comparing rooms
after `toLowerCase` on both sides. -/
def Store.findByRoom (s : Store) (room : Str) : List User :=
  s.getAll.filter (fun u => lowerStr u.room = lowerStr room)

inductive JoinError where
  | usernameTaken
deriving DecidableEq, Repr

namespace UserService

/-- UserService.join: check findByUsername, fail USERNAME_TAKEN if it
finds anyone, otherwise freeze and add the new user. -/
def join (s : Store) (id username room : Str) : Except JoinError User × Store :=
  match s.findByUsername username with
  | some _ => (.error .usernameTaken, s)
  | none =>
    let u : User := ⟨id, username, room⟩
    (.ok u, s.add u)

/-- UserService.leave: delegates to store.remove. -/
def leave (s : Store) (id : Str) : Option User × Store := s.remove id

/-- UserService.getById. -/
def getById (s : Store) (id : Str) : Option User := s.findById id

/-- UserService.getByUsername. -/
def getByUsername (s : Store) (username : Str) : Option User :=
  s.findByUsername username

/-- UserService.getRoomUsers. -/
def getRoomUsers (s : Store) (room : Str) : List User := s.findByRoom room

/-- UserService.isUsernameAvailable. -/
def isUsernameAvailable (s : Store) (username : Str) : Bool :=
  (s.findByUsername username).isNone

/-- One step of `getActiveRooms`'s `Set.add` (insertion-ordered set). -/
def setAdd (acc : List Str) (r : Str) : List Str :=
  if r ∈ acc then acc else acc ++ [r]

/-- UserService.getActiveRooms: collect each user's stored room label
verbatim into an insertion-ordered set. -/
def getActiveRooms (s : Store) : List Str :=
  (s.getAll.map User.room).foldl setAdd []

end UserService

-- ============================================
-- Socket handlers (socket handler source file)
-- ============================================

/-- Payload of a MESSAGE emission: which message-service constructor
produced it (the rendered timestamp is real-time and kept abstract). -/
inductive ServerMsg where
  | welcome
  | userJoined (username : Str)
  | userLeft (username : Str)
  | chat (username : Str) (text : Str)
deriving DecidableEq, Repr

/-- One outbound send, tagged by the addressing primitive used:
`socket.emit` (self only), `socket.broadcast.to(room)` (room minus
sender) or `io.to(room)` (whole room). -/
inductive Emission where
  | msgToSelf (m : ServerMsg)
  | msgToOthers (room : Str) (m : ServerMsg)
  | msgToRoom (room : Str) (m : ServerMsg)
  | roomUsersToRoom (room : Str) (users : List User)
  | usernameErrorToSelf (e : VErr ⊕ JoinError)
  | errorToSelf (code : Str)
deriving DecidableEq, Repr

def codeUserNotFound : Str := ['U', 'S', 'E', 'R', '_', 'N', 'O', 'T', '_', 'F', 'O', 'U', 'N', 'D']
def codeInvalidMessage : Str := ['I', 'N', 'V', 'A', 'L', 'I', 'D', '_', 'M', 'E', 'S', 'S', 'A', 'G', 'E']

/-- handleJoinRoom: validate the payload (either field failing emits a
USERNAME_ERROR and stops), call UserService.join (failure likewise),
and on success store the user in socket.data, then emit the welcome to
the joiner, the joined-notice to the rest of the room, and the
membership snapshot (recomputed from the post-join store) to the whole
room, in that source order. Returns the new store, the emissions in
order, and the new `socket.data.user`. -/
def handleJoinRoom (s : Store) (socketId rawUsername rawRoom : Str) :
    Store × List Emission × Option User :=
  match usernameSchema rawUsername with
  | .error e => (s, [.usernameErrorToSelf (.inl e)], none)
  | .ok username =>
    match roomSchema rawRoom with
    | .error e => (s, [.usernameErrorToSelf (.inl e)], none)
    | .ok room =>
      match UserService.join s socketId username room with
      | (.error e, s2) => (s2, [.usernameErrorToSelf (.inr e)], none)
      | (.ok u, s2) =>
        (s2,
         [.msgToSelf .welcome,
          .msgToOthers u.room (.userJoined u.username),
          .roomUsersToRoom u.room (UserService.getRoomUsers s2 u.room)],
         some u)

/-- handleChatMessage: resolve the sender as `socket.data.user ??
userService.getById(socket.id)`; absent → a USER_NOT_FOUND error to the
socket alone; invalid text → INVALID_MESSAGE to the socket alone;
otherwise broadcast the formatted message to the whole room. The store
is returned unchanged on every path (the handler never mutates it). -/
def handleChatMessage (s : Store) (socketDataUser : Option User)
    (socketId : Str) (msg : Str) : Store × List Emission :=
  match (match socketDataUser with
         | some u => some u
         | none => UserService.getById s socketId) with
  | none => (s, [.errorToSelf codeUserNotFound])
  | some u =>
    match messageSchema msg with
    | .error _ => (s, [.errorToSelf codeInvalidMessage])
    | .ok text => (s, [.msgToRoom u.room (.chat u.username text)])

-- ============================================
-- Registry invariant and reachability
-- ============================================

def keysOf (l : List (Str × α)) : List Str := l.map Prod.fst

/-- Well-formedness of a store: keys are unique and equal to the stored
user's id, ids are nonempty, and the username index is exactly the
lowercased-name-to-id map of the live users. -/
structure Inv (s : Store) : Prop where
  usersNodup : (keysOf s.users).Nodup
  indexNodup : (keysOf s.usernameIndex).Nodup
  usersKey : ∀ p ∈ s.users, p.1 = p.2.id
  usersNe : ∀ p ∈ s.users, p.2.id ≠ []
  indexSound : ∀ p ∈ s.usernameIndex,
    ∃ u, alGet p.2 s.users = some u ∧ lowerStr u.username = p.1
  indexComplete : ∀ p ∈ s.users,
    alGet (lowerStr p.2.username) s.usernameIndex = some p.2.id

/-- Stores reachable from the empty registry by join and leave calls in
which every join presents a nonempty connection id that is not
currently registered (the discipline the socket layer provides: socket
ids are nonempty and a live socket joins at most once). -/
inductive ReachF : Store → Prop where
  | emptyStore : ReachF Store.emptyStore
  | joinStep (s : Store) (id n r : Str) : ReachF s → id ≠ [] →
      s.findById id = none → ReachF (UserService.join s id n r).2
  | leaveStep (s : Store) (id : Str) : ReachF s →
      ReachF (UserService.leave s id).2

-- ============================================
-- Concrete inputs used by counterexamples and witnesses
-- ============================================

def strAlice : Str := ['a', 'l', 'i', 'c', 'e']
def strAliceUp : Str := ['A', 'L', 'I', 'C', 'E']
def strBob : Str := ['b', 'o', 'b']
def strGeneral : Str := ['g', 'e', 'n', 'e', 'r', 'a', 'l']
def strRoomUp : Str := ['R', 'o', 'o', 'm']
def strRoomLo : Str := ['r', 'o', 'o', 'm']
def strC1 : Str := ['c', '1']
def strC2 : Str := ['c', '2']
def strSpace : Str := [' ']
def strHi : Str := ['h', 'i']

/-- State after join(c1, alice, general). -/
def stAlice : Store := (UserService.join Store.emptyStore strC1 strAlice strGeneral).2

/-- State after join(c1, alice, general) then join(c1, bob, general):
the same connection re-joins under a new name, which overwrites the
user entry but leaves the old "alice" index entry pointing at c1. -/
def stRejoin : Store := (UserService.join stAlice strC1 strBob strGeneral).2

/-- State after join(c1, alice, Room) then join(c2, bob, room): two room
labels differing only in case. -/
def stTwoRooms : Store :=
  (UserService.join (UserService.join Store.emptyStore strC1 strAlice strRoomUp).2
    strC2 strBob strRoomLo).2

/-- 251 literal < characters: a valid message whose escaped form has
1004 characters. -/
def manyLt : Str := List.replicate 251 ltChar

def rawScript : Str := "<script>alert(1)</script>".data
def escapedScript : Str := "&lt;script&gt;alert(1)&lt;/script&gt;".data

-- ============================================
-- Lemmas: trim
-- ============================================

theorem trim_eq_rdrop (s : Str) :
    trim s = List.rdropWhile isJsWhitespace (List.dropWhile isJsWhitespace s) := rfl

theorem head?_dropWhile_not (p : Char → Bool) (l : List Char) :
    ∀ c, (List.dropWhile p l).head? = some c → p c = false := by
  induction l with
  | nil =>
    intro c hc
    simp [List.dropWhile] at hc
  | cons d rest ih =>
    intro c hc
    rw [List.dropWhile_cons] at hc
    by_cases hd : p d
    · rw [if_pos hd] at hc
      exact ih c hc
    · rw [if_neg hd] at hc
      simp only [List.head?_cons, Option.some.injEq] at hc
      rw [← hc]
      simpa using hd

theorem dropWhile_trim (s : Str) :
    List.dropWhile isJsWhitespace (trim s) = trim s := by
  rcases ht : trim s with _ | ⟨c, rest⟩
  · rfl
  · have hpfx := List.rdropWhile_prefix isJsWhitespace (List.dropWhile isJsWhitespace s)
    rw [← trim_eq_rdrop, ht] at hpfx
    obtain ⟨w, hw⟩ := hpfx
    have hc : (List.dropWhile isJsWhitespace s).head? = some c := by
      rw [← hw]
      rfl
    have hnc := head?_dropWhile_not isJsWhitespace s c hc
    rw [List.dropWhile_cons_of_neg (by simp [hnc])]

theorem rdropWhile_trim (s : Str) :
    List.rdropWhile isJsWhitespace (trim s) = trim s := by
  rw [trim_eq_rdrop, List.rdropWhile_idempotent]

theorem trim_trim (s : Str) : trim (trim s) = trim s := by
  conv_lhs => rw [trim_eq_rdrop (trim s)]
  rw [dropWhile_trim, rdropWhile_trim]

theorem trim_eq_self (s : Str) (h1 : List.dropWhile isJsWhitespace s = s)
    (h2 : List.rdropWhile isJsWhitespace s = s) : trim s = s := by
  rw [trim_eq_rdrop, h1, h2]

theorem trim_sublist (s : Str) : List.Sublist (trim s) s :=
  ((List.rdropWhile_prefix _ _).sublist).trans ((List.dropWhile_suffix _).sublist)

theorem dropWhile_eq_self_of_all (s : Str)
    (h : ∀ c ∈ s, isJsWhitespace c = false) :
    List.dropWhile isJsWhitespace s = s := by
  cases s with
  | nil => rfl
  | cons c rest =>
    rw [List.dropWhile_cons_of_neg]
    simp [h c (List.mem_cons_self c rest)]

theorem rdropWhile_eq_self_of_all (s : Str)
    (h : ∀ c ∈ s, isJsWhitespace c = false) :
    List.rdropWhile isJsWhitespace s = s := by
  rw [List.rdropWhile_eq_self_iff]
  intro hl
  simp [h _ (List.getLast_mem hl)]

theorem trim_eq_self_of_all (s : Str)
    (h : ∀ c ∈ s, isJsWhitespace c = false) : trim s = s :=
  trim_eq_self s (dropWhile_eq_self_of_all s h) (rdropWhile_eq_self_of_all s h)

theorem not_ws_of_nameChar (c : Char) (h : isNameChar c = true) :
    isJsWhitespace c = false := by
  by_contra hw
  have hw2 : isJsWhitespace c = true := by simpa using hw
  simp only [isJsWhitespace, Bool.or_eq_true, decide_eq_true_eq] at hw2
  rcases hw2 with ((((((h1 | h1) | h1) | h1) | h1) | h1) | h1) | h1 <;>
    (subst h1; exact absurd h (by decide))

-- ============================================
-- Lemmas: success characterizations of the validators
-- ============================================

theorem usernameSchema_ok_iff (raw t : Str) :
    usernameSchema raw = .ok t ↔
      t = trim raw ∧ 2 ≤ t.length ∧ t.length ≤ 20 ∧ t.all isNameChar = true := by
  unfold usernameSchema
  split_ifs with h1 h2 h3
  · constructor
    · intro hh
      exact absurd hh (by simp)
    · rintro ⟨ht, hlen, -, -⟩
      rw [ht] at hlen
      omega
  · constructor
    · intro hh
      exact absurd hh (by simp)
    · rintro ⟨ht, -, hlen, -⟩
      rw [ht] at hlen
      omega
  · constructor
    · intro hh
      have ht : t = trim raw := by
        injection hh with h4
        exact h4.symm
      subst ht
      exact ⟨rfl, by omega, by omega, h3⟩
    · rintro ⟨ht, -, -, -⟩
      rw [ht]
  · constructor
    · intro hh
      exact absurd hh (by simp)
    · rintro ⟨ht, -, -, hall⟩
      rw [ht] at hall
      exact absurd hall h3

theorem roomSchema_ok_iff (raw t : Str) :
    roomSchema raw = .ok t ↔
      1 ≤ raw.length ∧ raw.length ≤ 50 ∧ raw.all isRoomChar = true ∧ t = trim raw := by
  unfold roomSchema
  split_ifs with h1 h2 h3
  · constructor
    · intro hh
      exact absurd hh (by simp)
    · rintro ⟨hlen, -, -, -⟩
      omega
  · constructor
    · intro hh
      exact absurd hh (by simp)
    · rintro ⟨-, hlen, -, -⟩
      omega
  · constructor
    · intro hh
      have ht : t = trim raw := by
        injection hh with h4
        exact h4.symm
      exact ⟨by omega, by omega, h3, ht⟩
    · rintro ⟨-, -, -, ht⟩
      rw [ht]
  · constructor
    · intro hh
      exact absurd hh (by simp)
    · rintro ⟨-, -, hall, -⟩
      exact absurd hall h3

theorem messageSchema_ok_iff (raw t : Str) :
    messageSchema raw = .ok t ↔
      1 ≤ raw.length ∧ raw.length ≤ 1000 ∧ t = escapeHtml (trim raw) := by
  unfold messageSchema
  split_ifs with h1 h2
  · constructor
    · intro hh
      exact absurd hh (by simp)
    · rintro ⟨hlen, -, -⟩
      omega
  · constructor
    · intro hh
      exact absurd hh (by simp)
    · rintro ⟨-, hlen, -⟩
      omega
  · constructor
    · intro hh
      have ht : t = escapeHtml (trim raw) := by
        injection hh with h4
        exact h4.symm
      exact ⟨by omega, by omega, ht⟩
    · rintro ⟨-, -, ht⟩
      rw [ht]

-- ============================================
-- Lemmas: escapeHtml
-- ============================================

/-- Character-wise view of the four chained replaces. -/
def escChar (c : Char) : Str :=
  if c = ltChar then entLt
  else if c = gtChar then entGt
  else if c = quotChar then entQuot
  else if c = aposChar then entApos
  else [c]

theorem replaceAll_eq_flatMap (c : Char) (rep : Str) (s : Str) :
    replaceAll c rep s = s.flatMap (fun d => if d = c then rep else [d]) := by
  induction s with
  | nil => rfl
  | cons d rest ih =>
    rw [replaceAll, List.flatMap_cons]
    by_cases hd : d = c
    · rw [if_pos hd, if_pos hd, ih]
    · rw [if_neg hd, if_neg hd, ih]
      rfl

theorem escapeHtml_eq_flatMap (s : Str) : escapeHtml s = s.flatMap escChar := by
  unfold escapeHtml
  rw [replaceAll_eq_flatMap, replaceAll_eq_flatMap, replaceAll_eq_flatMap,
    replaceAll_eq_flatMap, List.flatMap_assoc, List.flatMap_assoc, List.flatMap_assoc]
  congr 1
  funext c
  by_cases h1 : c = ltChar
  · subst h1
    decide
  · rw [if_neg h1]
    by_cases h2 : c = gtChar
    · subst h2
      decide
    · rw [List.flatMap_cons, List.flatMap_nil, List.append_nil, if_neg h2]
      by_cases h3 : c = quotChar
      · subst h3
        decide
      · rw [List.flatMap_cons, List.flatMap_nil, List.append_nil, if_neg h3]
        by_cases h4 : c = aposChar
        · subst h4
          decide
        · rw [List.flatMap_cons, List.flatMap_nil, List.append_nil, if_neg h4]
          unfold escChar
          rw [if_neg h1, if_neg h2, if_neg h3, if_neg h4]

/-- The four escaped characters never occur in an escape's output. -/
theorem escChar_no_specials (c d : Char)
    (hd : d = ltChar ∨ d = gtChar ∨ d = quotChar ∨ d = aposChar) :
    d ∉ escChar c := by
  unfold escChar
  by_cases h1 : c = ltChar
  · rw [if_pos h1]
    rcases hd with h | h | h | h <;> (subst h; decide)
  · rw [if_neg h1]
    by_cases h2 : c = gtChar
    · rw [if_pos h2]
      rcases hd with h | h | h | h <;> (subst h; decide)
    · rw [if_neg h2]
      by_cases h3 : c = quotChar
      · rw [if_pos h3]
        rcases hd with h | h | h | h <;> (subst h; decide)
      · rw [if_neg h3]
        by_cases h4 : c = aposChar
        · rw [if_pos h4]
          rcases hd with h | h | h | h <;> (subst h; decide)
        · rw [if_neg h4]
          intro hmem
          rw [List.mem_singleton] at hmem
          subst hmem
          rcases hd with h | h | h | h
          · exact h1 h
          · exact h2 h
          · exact h3 h
          · exact h4 h

theorem escapeHtml_no_specials (s : Str) (d : Char)
    (hd : d = ltChar ∨ d = gtChar ∨ d = quotChar ∨ d = aposChar) :
    d ∉ escapeHtml s := by
  rw [escapeHtml_eq_flatMap]
  intro hmem
  rw [List.mem_flatMap] at hmem
  obtain ⟨c, -, hc⟩ := hmem
  exact escChar_no_specials c d hd hc

/-- escapeHtml is the identity on strings containing none of the four
escaped characters. -/
theorem escapeHtml_eq_self (s : Str)
    (h : ∀ d ∈ s, d ≠ ltChar ∧ d ≠ gtChar ∧ d ≠ quotChar ∧ d ≠ aposChar) :
    escapeHtml s = s := by
  rw [escapeHtml_eq_flatMap]
  induction s with
  | nil => rfl
  | cons c rest ih =>
    rw [List.flatMap_cons]
    obtain ⟨h1, h2, h3, h4⟩ := h c (List.mem_cons_self c rest)
    rw [escChar, if_neg h1, if_neg h2, if_neg h3, if_neg h4]
    rw [List.singleton_append, ih fun d hdm => h d (List.mem_cons_of_mem c hdm)]

theorem escChar_head (c : Char) (hc : isJsWhitespace c = false) :
    ∃ a y, escChar c = a :: y ∧ isJsWhitespace a = false := by
  unfold escChar
  by_cases h1 : c = ltChar
  · exact ⟨'&', ['l', 't', ';'], by rw [if_pos h1]; rfl, by decide⟩
  · rw [if_neg h1]
    by_cases h2 : c = gtChar
    · exact ⟨'&', ['g', 't', ';'], by rw [if_pos h2]; rfl, by decide⟩
    · rw [if_neg h2]
      by_cases h3 : c = quotChar
      · exact ⟨'&', ['q', 'u', 'o', 't', ';'], by rw [if_pos h3]; rfl, by decide⟩
      · rw [if_neg h3]
        by_cases h4 : c = aposChar
        · exact ⟨'&', ['#', 'x', '2', '7', ';'], by rw [if_pos h4]; rfl, by decide⟩
        · rw [if_neg h4]
          exact ⟨c, [], rfl, hc⟩

theorem escChar_last (c : Char) (hc : isJsWhitespace c = false) :
    ∃ y b, escChar c = y ++ [b] ∧ isJsWhitespace b = false := by
  unfold escChar
  by_cases h1 : c = ltChar
  · exact ⟨['&', 'l', 't'], ';', by rw [if_pos h1]; rfl, by decide⟩
  · rw [if_neg h1]
    by_cases h2 : c = gtChar
    · exact ⟨['&', 'g', 't'], ';', by rw [if_pos h2]; rfl, by decide⟩
    · rw [if_neg h2]
      by_cases h3 : c = quotChar
      · exact ⟨['&', 'q', 'u', 'o', 't'], ';', by rw [if_pos h3]; rfl, by decide⟩
      · rw [if_neg h3]
        by_cases h4 : c = aposChar
        · exact ⟨['&', '#', 'x', '2', '7'], ';', by rw [if_pos h4]; rfl, by decide⟩
        · rw [if_neg h4]
          exact ⟨[], c, rfl, hc⟩

theorem head_not_of_dropWhile_self (p : Char → Bool) (c : Char) (rest : List Char)
    (h : List.dropWhile p (c :: rest) = c :: rest) : p c = false := by
  by_contra hpc
  have hpc2 : p c = true := by simpa using hpc
  rw [List.dropWhile_cons_of_pos hpc2] at h
  have hlen := congrArg List.length h
  have hle := (List.dropWhile_suffix p (l := rest)).sublist.length_le
  simp at hlen
  omega

theorem last_not_of_rdropWhile_self (p : Char → Bool) (c : Char) (init : List Char)
    (h : List.rdropWhile p (init ++ [c]) = init ++ [c]) : p c = false := by
  by_contra hpc
  have hpc2 : p c = true := by simpa using hpc
  rw [List.rdropWhile_concat_pos _ _ c hpc2] at h
  have hlen := congrArg List.length h
  have hle := (List.rdropWhile_prefix p init).sublist.length_le
  simp at hlen
  omega

theorem dropWhile_escape (s : Str) (h : List.dropWhile isJsWhitespace s = s) :
    List.dropWhile isJsWhitespace (escapeHtml s) = escapeHtml s := by
  cases s with
  | nil => rfl
  | cons c rest =>
    have hc : isJsWhitespace c = false := head_not_of_dropWhile_self _ c rest h
    rw [escapeHtml_eq_flatMap, List.flatMap_cons]
    obtain ⟨a, y, he, ha⟩ := escChar_head c hc
    rw [he, List.cons_append, List.dropWhile_cons_of_neg (by simp [ha])]

theorem rdropWhile_escape (s : Str) (h : List.rdropWhile isJsWhitespace s = s) :
    List.rdropWhile isJsWhitespace (escapeHtml s) = escapeHtml s := by
  rcases List.eq_nil_or_concat s with rfl | ⟨init, c, rfl⟩
  · rfl
  · rw [List.concat_eq_append] at h ⊢
    have hc : isJsWhitespace c = false := last_not_of_rdropWhile_self _ c init h
    rw [escapeHtml_eq_flatMap, List.flatMap_append]
    obtain ⟨y, b, he, hb⟩ := escChar_last c hc
    have : List.flatMap [c] escChar = y ++ [b] := by
      rw [List.flatMap_cons, List.flatMap_nil, List.append_nil, he]
    rw [this, ← List.append_assoc, List.rdropWhile_concat_neg _ _ b (by simp [hb])]

theorem trim_escape_trim (m : Str) :
    trim (escapeHtml (trim m)) = escapeHtml (trim m) :=
  trim_eq_self _ (dropWhile_escape _ (dropWhile_trim m))
    (rdropWhile_escape _ (rdropWhile_trim m))

-- ============================================
-- Lemmas: validator idempotence (positive parts)
-- ============================================

theorem usernameSchema_idem (raw t : Str) (h : usernameSchema raw = .ok t) :
    usernameSchema t = .ok t := by
  rw [usernameSchema_ok_iff] at h ⊢
  obtain ⟨ht, hlo, hhi, hall⟩ := h
  have htt : trim t = t :=
    trim_eq_self_of_all t fun c hc =>
      not_ws_of_nameChar c (List.all_eq_true.mp hall c hc)
  exact ⟨htt.symm, hlo, hhi, hall⟩

theorem roomSchema_idem (raw t : Str) (h : roomSchema raw = .ok t) (hne : t ≠ []) :
    roomSchema t = .ok t := by
  rw [roomSchema_ok_iff] at h ⊢
  obtain ⟨hlo, hhi, hall, ht⟩ := h
  have hsub : List.Sublist t raw := by
    rw [ht]
    exact trim_sublist raw
  have htt : trim t = t := by
    rw [ht, trim_trim]
  refine ⟨?_, ?_, ?_, htt.symm⟩
  · have : 0 < t.length := List.length_pos.mpr hne
    omega
  · have := hsub.length_le
    omega
  · exact List.all_eq_true.mpr fun c hc =>
      List.all_eq_true.mp hall c (hsub.subset hc)

theorem messageSchema_idem (raw t : Str) (h : messageSchema raw = .ok t)
    (hne : t ≠ []) (hlen : t.length ≤ 1000) : messageSchema t = .ok t := by
  rw [messageSchema_ok_iff] at h ⊢
  obtain ⟨-, -, ht⟩ := h
  have htt : trim t = t := by
    rw [ht]
    exact trim_escape_trim raw
  refine ⟨by have := List.length_pos.mpr hne; omega, hlen, ?_⟩
  rw [htt]
  have hesc : escapeHtml t = t := by
    apply escapeHtml_eq_self
    intro d hdm
    rw [ht] at hdm
    refine ⟨?_, ?_, ?_, ?_⟩ <;>
      (intro he; subst he; exact escapeHtml_no_specials (trim raw) _ (by tauto) hdm)
  rw [hesc]

-- ============================================
-- Lemmas: association lists
-- ============================================

theorem keysOf_nil : keysOf ([] : List (Str × α)) = [] := rfl

theorem keysOf_cons (p : Str × α) (l : List (Str × α)) :
    keysOf (p :: l) = p.1 :: keysOf l := rfl

theorem keysOf_append (l m : List (Str × α)) :
    keysOf (l ++ m) = keysOf l ++ keysOf m := List.map_append _ l m

theorem alGet_alSet (k k2 : Str) (v : α) (l : List (Str × α)) :
    alGet k2 (alSet k v l) = if k2 = k then some v else alGet k2 l := by
  induction l with
  | nil =>
    simp only [alSet, alGet]
    by_cases h : k2 = k
    · rw [if_pos h.symm, if_pos h]
    · rw [if_neg fun hh => h hh.symm, if_neg h]
  | cons p rest ih =>
    obtain ⟨k3, v3⟩ := p
    simp only [alSet]
    by_cases h3 : k3 = k
    · rw [if_pos h3]
      simp only [alGet]
      by_cases h : k2 = k
      · rw [if_pos h.symm, if_pos h]
      · rw [if_neg fun hh => h hh.symm, if_neg h,
          if_neg fun hh : k3 = k2 => h (hh.symm.trans h3)]
    · rw [if_neg h3]
      simp only [alGet]
      by_cases h32 : k3 = k2
      · rw [if_pos h32, if_pos h32,
          if_neg fun hh : k2 = k => h3 (h32.trans hh)]
      · rw [if_neg h32, if_neg h32, ih]

theorem alGet_alDel_ne (k k2 : Str) (l : List (Str × α)) (h : k2 ≠ k) :
    alGet k2 (alDel k l) = alGet k2 l := by
  induction l with
  | nil => rfl
  | cons p rest ih =>
    obtain ⟨k3, v3⟩ := p
    simp only [alDel, alGet]
    by_cases h3 : k3 = k
    · rw [if_pos h3, if_neg fun hh : k3 = k2 => h (hh.symm.trans h3)]
    · rw [if_neg h3]
      simp only [alGet]
      by_cases h32 : k3 = k2
      · rw [if_pos h32, if_pos h32]
      · rw [if_neg h32, if_neg h32, ih]

theorem alDel_sublist (k : Str) (l : List (Str × α)) :
    List.Sublist (alDel k l) l := by
  induction l with
  | nil => exact List.nil_sublist []
  | cons p rest ih =>
    obtain ⟨k3, v3⟩ := p
    simp only [alDel]
    by_cases h3 : k3 = k
    · rw [if_pos h3]
      exact List.sublist_cons_self _ _
    · rw [if_neg h3]
      exact ih.cons₂ _

theorem alGet_eq_none_iff (k : Str) (l : List (Str × α)) :
    alGet k l = none ↔ k ∉ keysOf l := by
  induction l with
  | nil => simp [alGet, keysOf]
  | cons p rest ih =>
    obtain ⟨k3, v3⟩ := p
    simp only [alGet, keysOf_cons, List.mem_cons]
    by_cases h3 : k3 = k
    · rw [if_pos h3]
      simp [h3]
    · rw [if_neg h3]
      rw [ih]
      constructor
      · intro hk hor
        rcases hor with hor | hor
        · exact h3 hor.symm
        · exact hk hor
      · intro hk hm
        exact hk (Or.inr hm)

theorem alSet_eq_append (k : Str) (v : α) (l : List (Str × α))
    (h : alGet k l = none) : alSet k v l = l ++ [(k, v)] := by
  induction l with
  | nil => rfl
  | cons p rest ih =>
    obtain ⟨k3, v3⟩ := p
    simp only [alGet] at h
    by_cases h3 : k3 = k
    · rw [if_pos h3] at h
      exact absurd h (by simp)
    · rw [if_neg h3] at h
      simp only [alSet]
      rw [if_neg h3, ih h, List.cons_append]

theorem mem_of_alGet (k : Str) (v : α) (l : List (Str × α))
    (h : alGet k l = some v) : (k, v) ∈ l := by
  induction l with
  | nil => simp [alGet] at h
  | cons p rest ih =>
    obtain ⟨k3, v3⟩ := p
    simp only [alGet] at h
    by_cases h3 : k3 = k
    · rw [if_pos h3] at h
      injection h with h4
      subst h3
      subst h4
      exact List.mem_cons_self _ _
    · rw [if_neg h3] at h
      exact List.mem_cons_of_mem _ (ih h)

theorem alGet_of_mem_nodup (k : Str) (v : α) (l : List (Str × α))
    (hnd : (keysOf l).Nodup) (hm : (k, v) ∈ l) : alGet k l = some v := by
  induction l with
  | nil => simp at hm
  | cons p rest ih =>
    obtain ⟨k3, v3⟩ := p
    rw [keysOf_cons, List.nodup_cons] at hnd
    rcases List.mem_cons.mp hm with h | h
    · injection h with h1 h2
      simp only [alGet]
      rw [if_pos h1.symm, h2]
    · have hk3 : k3 ≠ k := by
        intro hh
        apply hnd.1
        rw [hh]
        exact List.mem_map.mpr ⟨(k, v), h, rfl⟩
      simp only [alGet]
      rw [if_neg hk3]
      exact ih hnd.2 h

theorem alGet_alDel_self (k : Str) (l : List (Str × α))
    (hnd : (keysOf l).Nodup) : alGet k (alDel k l) = none := by
  induction l with
  | nil => rfl
  | cons p rest ih =>
    obtain ⟨k3, v3⟩ := p
    rw [keysOf_cons, List.nodup_cons] at hnd
    simp only [alDel]
    by_cases h3 : k3 = k
    · rw [if_pos h3]
      rw [alGet_eq_none_iff]
      intro hk
      exact hnd.1 (h3 ▸ hk)
    · rw [if_neg h3]
      simp only [alGet]
      rw [if_neg h3]
      exact ih hnd.2

theorem key_ne_of_mem_alDel (k : Str) (l : List (Str × α)) (p : Str × α)
    (hnd : (keysOf l).Nodup) (hm : p ∈ alDel k l) : p.1 ≠ k := by
  induction l with
  | nil => simp [alDel] at hm
  | cons q rest ih =>
    obtain ⟨k3, v3⟩ := q
    rw [keysOf_cons, List.nodup_cons] at hnd
    simp only [alDel] at hm
    by_cases h3 : k3 = k
    · rw [if_pos h3] at hm
      intro hk
      apply hnd.1
      rw [h3, ← hk]
      exact List.mem_map.mpr ⟨p, hm, rfl⟩
    · rw [if_neg h3] at hm
      rcases List.mem_cons.mp hm with h | h
      · rw [h]
        exact h3
      · exact ih hnd.2 h

theorem mem_of_mem_alDel (k : Str) (l : List (Str × α)) (p : Str × α)
    (hm : p ∈ alDel k l) : p ∈ l :=
  (alDel_sublist k l).subset hm

theorem keysOf_alDel_nodup (k : Str) (l : List (Str × α))
    (hnd : (keysOf l).Nodup) : (keysOf (alDel k l)).Nodup :=
  List.Nodup.sublist ((alDel_sublist k l).map Prod.fst) hnd

theorem keysOf_alSet_found (k : Str) (v : α) (l : List (Str × α)) :
    ∀ v2, alGet k l = some v2 → keysOf (alSet k v l) = keysOf l := by
  induction l with
  | nil =>
    intro v2 hg
    simp [alGet] at hg
  | cons p rest ih =>
    intro v2 hg
    obtain ⟨k3, v3⟩ := p
    simp only [alGet] at hg
    simp only [alSet]
    by_cases h3 : k3 = k
    · rw [if_pos h3, keysOf_cons, keysOf_cons, h3]
    · rw [if_neg h3] at hg
      rw [if_neg h3, keysOf_cons, keysOf_cons, ih v2 hg]

theorem keysOf_alSet_nodup (k : Str) (v : α) (l : List (Str × α))
    (hnd : (keysOf l).Nodup) : (keysOf (alSet k v l)).Nodup := by
  rcases hg : alGet k l with _ | v2
  · rw [alSet_eq_append k v l hg, keysOf_append]
    rw [List.nodup_append]
    refine ⟨hnd, List.nodup_singleton k, ?_⟩
    intro a ha hb
    rw [keysOf_cons, keysOf_nil, List.mem_singleton] at hb
    subst hb
    exact (alGet_eq_none_iff a l).mp hg ha
  · rw [keysOf_alSet_found k v l v2 hg]
    exact hnd

theorem alGet_append_left (k : Str) (v : α) (l m : List (Str × α))
    (h : alGet k l = some v) : alGet k (l ++ m) = some v := by
  induction l with
  | nil => simp [alGet] at h
  | cons p rest ih =>
    obtain ⟨k3, v3⟩ := p
    simp only [alGet] at h
    rw [List.cons_append]
    simp only [alGet]
    by_cases h3 : k3 = k
    · rw [if_pos h3] at h ⊢
      exact h
    · rw [if_neg h3] at h ⊢
      exact ih h

theorem alGet_append_right (k : Str) (l m : List (Str × α))
    (h : alGet k l = none) : alGet k (l ++ m) = alGet k m := by
  induction l with
  | nil => rfl
  | cons p rest ih =>
    obtain ⟨k3, v3⟩ := p
    simp only [alGet] at h
    rw [List.cons_append]
    simp only [alGet]
    by_cases h3 : k3 = k
    · rw [if_pos h3] at h
      exact absurd h (by simp)
    · rw [if_neg h3] at h ⊢
      exact ih h

-- ============================================
-- Lemmas: the registry invariant
-- ============================================

theorem inv_empty : Inv Store.emptyStore := by
  constructor <;> simp [Store.emptyStore, keysOf]

theorem findByUsername_eq (s : Store) (n : Str) :
    s.findByUsername n =
      match alGet (lowerStr n) s.usernameIndex with
      | some id => if id = [] then none else alGet id s.users
      | none => none := rfl

theorem findByUsername_some_of_inv (s : Store) (n : Str) (u : User)
    (hinv : Inv s) (h : s.findByUsername n = some u) :
    u ∈ s.getAll ∧ lowerStr u.username = lowerStr n := by
  rcases hidx : alGet (lowerStr n) s.usernameIndex with _ | id
  · rw [findByUsername_eq, hidx] at h
    exact absurd h (by simp)
  · rw [findByUsername_eq, hidx] at h
    have h2 : (if id = [] then none else alGet id s.users) = some u := h
    by_cases hid : id = []
    · rw [if_pos hid] at h2
      exact absurd h2 (by simp)
    · rw [if_neg hid] at h2
      obtain ⟨u0, hu0, hl0⟩ := hinv.indexSound _ (mem_of_alGet _ _ _ hidx)
      have hu0x : alGet id s.users = some u0 := hu0
      have hequ : u0 = u := by
        rw [hu0x] at h2
        injection h2
      subst hequ
      exact ⟨List.mem_map.mpr ⟨(id, u0), mem_of_alGet _ _ _ h2, rfl⟩, hl0⟩

theorem index_none_of_findByUsername_none (s : Store) (n : Str)
    (hinv : Inv s) (h : s.findByUsername n = none) :
    alGet (lowerStr n) s.usernameIndex = none := by
  rcases hidx : alGet (lowerStr n) s.usernameIndex with _ | id
  · rfl
  · exfalso
    obtain ⟨u0, hu0, hl0⟩ := hinv.indexSound _ (mem_of_alGet _ _ _ hidx)
    have hu0x : alGet id s.users = some u0 := hu0
    have hmem := mem_of_alGet _ _ _ hu0x
    have hkey : id = u0.id := hinv.usersKey _ hmem
    have hne : id ≠ [] := by
      rw [hkey]
      exact hinv.usersNe _ hmem
    rw [findByUsername_eq, hidx] at h
    have h2 : (if id = [] then none else alGet id s.users) = none := h
    rw [if_neg hne, hu0x] at h2
    exact absurd h2 (by simp)

theorem findByUsername_none_iff (s : Store) (n : Str) (hinv : Inv s) :
    s.findByUsername n = none ↔
      ∀ u ∈ s.getAll, lowerStr u.username ≠ lowerStr n := by
  constructor
  · intro h u hu hl
    obtain ⟨p, hp, hpu⟩ := List.mem_map.mp hu
    have hidx := index_none_of_findByUsername_none s n hinv h
    have hcomp := hinv.indexComplete p hp
    rw [hpu, hl] at hcomp
    rw [hidx] at hcomp
    exact absurd hcomp (by simp)
  · intro h
    rcases hfb : s.findByUsername n with _ | u
    · rfl
    · obtain ⟨hu, hl⟩ := findByUsername_some_of_inv s n u hinv hfb
      exact absurd hl (h u hu)

theorem inv_join (s : Store) (id n r : Str) (hinv : Inv s) (hid : id ≠ [])
    (hfresh : s.findById id = none) : Inv (UserService.join s id n r).2 := by
  rcases hfb : s.findByUsername n with _ | u0
  · have hidx : alGet (lowerStr n) s.usernameIndex = none :=
      index_none_of_findByUsername_none s n hinv hfb
    have hfresh2 : alGet id s.users = none := hfresh
    have hj : (UserService.join s id n r).2 = s.add ⟨id, n, r⟩ := by
      rw [UserService.join, hfb]
    rw [hj]
    have husers : (s.add ⟨id, n, r⟩).users = s.users ++ [(id, ⟨id, n, r⟩)] :=
      alSet_eq_append _ _ _ hfresh2
    have hindex : (s.add ⟨id, n, r⟩).usernameIndex =
        s.usernameIndex ++ [(lowerStr n, id)] :=
      alSet_eq_append _ _ _ hidx
    constructor
    · exact keysOf_alSet_nodup _ _ _ hinv.usersNodup
    · exact keysOf_alSet_nodup _ _ _ hinv.indexNodup
    · intro p hp
      rw [husers] at hp
      rcases List.mem_append.mp hp with hm | hm
      · exact hinv.usersKey p hm
      · rw [List.mem_singleton] at hm
        subst hm
        rfl
    · intro p hp
      rw [husers] at hp
      rcases List.mem_append.mp hp with hm | hm
      · exact hinv.usersNe p hm
      · rw [List.mem_singleton] at hm
        subst hm
        exact hid
    · intro p hp
      rw [hindex] at hp
      rcases List.mem_append.mp hp with hm | hm
      · obtain ⟨u2, hu2, hl2⟩ := hinv.indexSound p hm
        refine ⟨u2, ?_, hl2⟩
        show alGet p.2 (s.add ⟨id, n, r⟩).users = some u2
        rw [husers]
        exact alGet_append_left _ _ _ _ hu2
      · rw [List.mem_singleton] at hm
        subst hm
        refine ⟨⟨id, n, r⟩, ?_, rfl⟩
        show alGet id (s.add ⟨id, n, r⟩).users = some ⟨id, n, r⟩
        rw [husers, alGet_append_right _ _ _ hfresh2]
        simp [alGet]
    · intro p hp
      rw [husers] at hp
      rcases List.mem_append.mp hp with hm | hm
      · have hcomp := hinv.indexComplete p hm
        show alGet (lowerStr p.2.username) (s.add ⟨id, n, r⟩).usernameIndex =
          some p.2.id
        rw [hindex]
        exact alGet_append_left _ _ _ _ hcomp
      · rw [List.mem_singleton] at hm
        subst hm
        show alGet (lowerStr n) (s.add ⟨id, n, r⟩).usernameIndex = some id
        rw [hindex, alGet_append_right _ _ _ hidx]
        simp [alGet]
  · have hj : (UserService.join s id n r).2 = s := by
      rw [UserService.join, hfb]
    rw [hj]
    exact hinv

theorem inv_leave (s : Store) (id : Str) (hinv : Inv s) :
    Inv (UserService.leave s id).2 := by
  rcases hg : alGet id s.users with _ | u
  · have hj : (UserService.leave s id).2 = s := by
      rw [UserService.leave, Store.remove, hg]
    rw [hj]
    exact hinv
  · have hj : (UserService.leave s id).2 =
        ⟨alDel id s.users, alDel (lowerStr u.username) s.usernameIndex⟩ := by
      rw [UserService.leave, Store.remove, hg]
    rw [hj]
    have hmem : (id, u) ∈ s.users := mem_of_alGet _ _ _ hg
    have hukey : id = u.id := hinv.usersKey _ hmem
    constructor
    · exact keysOf_alDel_nodup _ _ hinv.usersNodup
    · exact keysOf_alDel_nodup _ _ hinv.indexNodup
    · intro p hp
      exact hinv.usersKey p (mem_of_mem_alDel _ _ _ hp)
    · intro p hp
      exact hinv.usersNe p (mem_of_mem_alDel _ _ _ hp)
    · intro p hp
      have hpmem := mem_of_mem_alDel _ _ _ hp
      have hpne := key_ne_of_mem_alDel _ _ _ hinv.indexNodup hp
      obtain ⟨u2, hu2, hl2⟩ := hinv.indexSound p hpmem
      refine ⟨u2, ?_, hl2⟩
      have hpid : p.2 ≠ id := by
        intro hh
        rw [hh, hg] at hu2
        injection hu2 with hu2e
        subst hu2e
        exact hpne hl2.symm
      show alGet p.2 (alDel id s.users) = some u2
      rw [alGet_alDel_ne _ _ _ hpid]
      exact hu2
    · intro p hp
      have hpmem := mem_of_mem_alDel _ _ _ hp
      have hpne := key_ne_of_mem_alDel _ _ _ hinv.usersNodup hp
      have hlne : lowerStr p.2.username ≠ lowerStr u.username := by
        intro hl
        have h1 := hinv.indexComplete p hpmem
        have h2 := hinv.indexComplete (id, u) hmem
        simp only at h2
        rw [hl] at h1
        rw [h1] at h2
        injection h2 with h2e
        exact hpne (by rw [hinv.usersKey p hpmem, h2e, ← hukey])
      show alGet (lowerStr p.2.username) (alDel (lowerStr u.username) s.usernameIndex) =
        some p.2.id
      rw [alGet_alDel_ne _ _ _ hlne]
      exact hinv.indexComplete p hpmem

theorem inv_of_reachF (s : Store) (h : ReachF s) : Inv s := by
  induction h with
  | emptyStore => exact inv_empty
  | joinStep s2 id n r _ hid hfresh ih => exact inv_join s2 id n r ih hid hfresh
  | leaveStep s2 id _ ih => exact inv_leave s2 id ih

theorem reachF_stAlice : ReachF stAlice :=
  ReachF.joinStep Store.emptyStore strC1 strAlice strGeneral ReachF.emptyStore
    (by decide) (by decide)

/-- Reduction of handleJoinRoom once both validators have succeeded. -/
theorem handleJoinRoom_ok (s : Store) (id rawU rawR n r : Str)
    (hn : usernameSchema rawU = .ok n) (hr : roomSchema rawR = .ok r) :
    handleJoinRoom s id rawU rawR =
      match UserService.join s id n r with
      | (.error e, s2) => (s2, [.usernameErrorToSelf (.inr e)], none)
      | (.ok u, s2) =>
        (s2, [.msgToSelf .welcome, .msgToOthers u.room (.userJoined u.username),
              .roomUsersToRoom u.room (UserService.getRoomUsers s2 u.room)], some u) := by
  unfold handleJoinRoom
  rw [hn, hr]

-- ============================================
-- Claim theorems
-- ============================================

/-- Claim C1, counterexample: after join(c1, alice, general) and a
second join(c1, bob, general) from the same connection, a join of
"alice" from a fresh connection c2 fails with USERNAME_TAKEN even
though no active Identity's display name equals "alice"
case-insensitively — the stale "alice" index entry still points at c1.
This refutes the claimed "only if" direction. -/
theorem join_fails_without_active_name :
    (UserService.join stRejoin strC2 strAlice strGeneral).1 =
      .error .usernameTaken ∧
    (∀ u ∈ stRejoin.getAll, lowerStr u.username ≠ lowerStr strAlice) := by
  decide

/-- Claim C1, amended: a failed join always leaves the registry
completely unchanged (no user-table entry, no index entry), and in
every state reachable with nonempty, never-reused connection ids, join
fails with USERNAME_TAKEN if and only if some active Identity has the
same case-insensitive display name. (After a re-join from an
already-registered connection the "only if" direction can fail, as the
counterexample shows.) -/
theorem join_nameTaken_iff_of_reach (s : Store) (id n r : Str) :
    ((UserService.join s id n r).1 = .error .usernameTaken →
      (UserService.join s id n r).2 = s) ∧
    (ReachF s →
      ((UserService.join s id n r).1 = .error .usernameTaken ↔
        ∃ u ∈ s.getAll, lowerStr u.username = lowerStr n)) := by
  rcases hfb : s.findByUsername n with _ | u0
  · have hj : UserService.join s id n r =
        (.ok ⟨id, n, r⟩, s.add ⟨id, n, r⟩) := by
      rw [UserService.join, hfb]
    rw [hj]
    constructor
    · intro hh
      exact absurd hh (by simp)
    · intro hreach
      constructor
      · intro hh
        exact absurd hh (by simp)
      · intro ⟨u, hu, hl⟩
        exact absurd hl
          ((findByUsername_none_iff s n (inv_of_reachF s hreach)).mp hfb u hu)
  · have hj : UserService.join s id n r = (.error .usernameTaken, s) := by
      rw [UserService.join, hfb]
    rw [hj]
    refine ⟨fun _ => rfl, fun hreach => ⟨fun _ => ?_, fun _ => rfl⟩⟩
    obtain ⟨hu, hl⟩ :=
      findByUsername_some_of_inv s n u0 (inv_of_reachF s hreach) hfb
    exact ⟨u0, hu, hl⟩

/-- Claim C1 witness: in the reachable one-user state {alice}, a join
using the other case variant ALICE fails with USERNAME_TAKEN. -/
theorem join_nameTaken_iff_of_reach_witness :
    (UserService.join stAlice strC2 strAliceUp strGeneral).1 =
      .error .usernameTaken :=
  ((join_nameTaken_iff_of_reach stAlice strC2 strAliceUp strGeneral).2
    reachF_stAlice).mpr ⟨⟨strC1, strAlice, strGeneral⟩, by decide, by decide⟩

/-- Claim C2, counterexample: in the reachable state obtained by
join(c1, alice, general) then join(c1, bob, general), getByName("alice")
returns the Identity named "bob" (whose display name does not equal
"alice" case-insensitively) and isNameAvailable("alice") is false even
though no active Identity's display name equals "alice"
case-insensitively — the name index is not consistent with the user
table after a re-join from a registered connectionId. -/
theorem registry_inconsistent_after_rejoin :
    UserService.getByUsername stRejoin strAlice =
      some ⟨strC1, strBob, strGeneral⟩ ∧
    lowerStr strBob ≠ lowerStr strAlice ∧
    UserService.isUsernameAvailable stRejoin strAlice = false ∧
    (∀ u ∈ stRejoin.getAll, lowerStr u.username ≠ lowerStr strAlice) := by
  decide

/-- Claim C2, amended: in every registry state reachable from the empty
registry by join and leave calls in which every join presents a
nonempty connectionId that is not currently registered, the name index
is consistent with the user table: getByName(n) is absent or returns an
active Identity whose display name equals n case-insensitively, and
isNameAvailable(n) is true exactly when no active Identity's display
name equals n case-insensitively. (A second successful join from an
already-registered connectionId breaks this, per the counterexample.) -/
theorem registry_consistent_of_reach (s : Store) (n : Str) (hreach : ReachF s) :
    (∀ u, UserService.getByUsername s n = some u →
      u ∈ s.getAll ∧ lowerStr u.username = lowerStr n) ∧
    (UserService.isUsernameAvailable s n = true ↔
      ∀ u ∈ s.getAll, lowerStr u.username ≠ lowerStr n) := by
  have hinv := inv_of_reachF s hreach
  constructor
  · intro u hu
    exact findByUsername_some_of_inv s n u hinv hu
  · rw [UserService.isUsernameAvailable, Option.isNone_iff_eq_none]
    exact findByUsername_none_iff s n hinv

/-- Claim C2 witness: in the reachable one-user state {alice}, "bob" is
available and lookups of "ALICE" return an identity matching it
case-insensitively. -/
theorem registry_consistent_of_reach_witness :
    UserService.isUsernameAvailable stAlice strBob = true :=
  (registry_consistent_of_reach stAlice strBob reachF_stAlice).2.mpr (by decide)

/-- Claim C3 (code bug): roomSchema runs min/max/regex on the RAW
string and trims only as the final transform, so the all-whitespace
room " " (nonempty, regex-allowed) is ACCEPTED and yields the empty
room label, although its trimmed length is 0 — contradicting both the
claimed EMPTY failure and the invariant that a validated room is
non-empty. -/
theorem roomSchema_accepts_blank :
    roomSchema strSpace = .ok [] ∧ trim strSpace = [] ∧ strSpace ≠ [] := by
  decide

/-- Claim C4 (code bug): messageSchema runs min/max on the RAW string
and trims afterwards, so the all-whitespace message " " is ACCEPTED and
becomes the empty sanitized message, although its trimmed length is 0 —
contradicting the claimed EMPTY failure. -/
theorem messageSchema_accepts_blank :
    messageSchema strSpace = .ok [] ∧ trim strSpace = [] ∧ strSpace ≠ [] := by
  decide

/-- Claim C5: every string accepted by messageSchema contains none of
the four literal characters < > " ' (each occurrence was replaced by
its entity), and concretely the script-tag probe is accepted, produces
the expected entity-escaped output, and contains no literal < or >. -/
theorem messageSchema_escapes :
    (∀ raw t, messageSchema raw = .ok t →
      ltChar ∉ t ∧ gtChar ∉ t ∧ quotChar ∉ t ∧ aposChar ∉ t) ∧
    messageSchema rawScript = .ok escapedScript ∧
    ltChar ∉ escapedScript ∧ gtChar ∉ escapedScript := by
  refine ⟨?_, by decide, by decide, by decide⟩
  intro raw t h
  rw [messageSchema_ok_iff] at h
  obtain ⟨-, -, ht⟩ := h
  subst ht
  exact ⟨escapeHtml_no_specials _ _ (by tauto),
    escapeHtml_no_specials _ _ (by tauto),
    escapeHtml_no_specials _ _ (by tauto),
    escapeHtml_no_specials _ _ (by tauto)⟩

/-- Claim C5 witness: the general part applied to the concrete
script-tag input. -/
theorem messageSchema_escapes_witness :
    ltChar ∉ escapedScript ∧ gtChar ∉ escapedScript ∧
      quotChar ∉ escapedScript ∧ aposChar ∉ escapedScript :=
  messageSchema_escapes.1 rawScript escapedScript (by decide)

set_option maxRecDepth 200000 in
/-- Claim C6, counterexample: roomSchema accepts the all-whitespace
room " " returning the empty string, which it then rejects as EMPTY;
and messageSchema accepts 251 literal < characters, whose escaped
output (1004 characters) it then rejects as TOO_LONG. Neither
validateRoom nor validateMessage is idempotent on its own output. -/
theorem validators_not_idempotent :
    revalidate roomSchema strSpace = some (.error .emptyStr) ∧
    revalidate messageSchema manyLt = some (.error .tooLong) := by
  constructor
  · decide
  · decide

/-- Claim C6, amended: validateName is idempotent on its own output
unconditionally; validateRoom is idempotent on every accepted output
that is nonempty; validateMessage is idempotent on every accepted
output that is nonempty and at most 1000 characters long. The
whitespace-only and escape-expansion counterexamples are exactly the
excluded cases. -/
theorem validators_idem_amended :
    (∀ raw t, usernameSchema raw = .ok t → usernameSchema t = .ok t) ∧
    (∀ raw t, roomSchema raw = .ok t → t ≠ [] → roomSchema t = .ok t) ∧
    (∀ raw t, messageSchema raw = .ok t → t ≠ [] → t.length ≤ 1000 →
      messageSchema t = .ok t) :=
  ⟨usernameSchema_idem, roomSchema_idem, messageSchema_idem⟩

/-- Claim C6 witness: each amended part applied at a concrete accepted
input. -/
theorem validators_idem_amended_witness :
    usernameSchema strAlice = .ok strAlice ∧
    roomSchema strGeneral = .ok strGeneral ∧
    messageSchema strHi = .ok strHi :=
  ⟨validators_idem_amended.1 strAlice strAlice (by decide),
   validators_idem_amended.2.1 strGeneral strGeneral (by decide) (by decide),
   validators_idem_amended.2.2 strHi strHi (by decide) (by decide) (by decide)⟩

/-- Claim C7: leave on a connectionId with no active Identity returns
absent and changes nothing — the result state is the same store, so
activeRooms() and every room's membership are unchanged — and (given
the Map-key uniqueness every real store has) repeating leave for the
same connectionId is idempotent: the second call returns absent and
leaves the state unchanged. -/
theorem leave_unknown_noop (s : Store) (id : Str) :
    (s.findById id = none →
      UserService.leave s id = (none, s) ∧
      UserService.getActiveRooms (UserService.leave s id).2 =
        UserService.getActiveRooms s ∧
      ∀ r, UserService.getRoomUsers (UserService.leave s id).2 r =
        UserService.getRoomUsers s r) ∧
    ((keysOf s.users).Nodup →
      (UserService.leave (UserService.leave s id).2 id).1 = none ∧
      (UserService.leave (UserService.leave s id).2 id).2 =
        (UserService.leave s id).2) := by
  constructor
  · intro h
    have h2 : alGet id s.users = none := h
    have hj : UserService.leave s id = (none, s) := by
      rw [UserService.leave, Store.remove, h2]
    rw [hj]
    exact ⟨rfl, rfl, fun r => rfl⟩
  · intro hnd
    rcases hg : alGet id s.users with _ | u
    · have hj : UserService.leave s id = (none, s) := by
        rw [UserService.leave, Store.remove, hg]
      constructor
      · rw [hj]
        show (UserService.leave s id).1 = none
        rw [hj]
      · rw [hj]
        show (UserService.leave s id).2 = (none, s).2
        rw [hj]
    · have hj : UserService.leave s id =
          (some u, ⟨alDel id s.users,
            alDel (lowerStr u.username) s.usernameIndex⟩) := by
        rw [UserService.leave, Store.remove, hg]
      rw [hj]
      have hg2 : alGet id (alDel id s.users) = none :=
        alGet_alDel_self id s.users hnd
      have hj2 : UserService.leave
          (⟨alDel id s.users, alDel (lowerStr u.username) s.usernameIndex⟩ : Store)
          id =
          (none, ⟨alDel id s.users, alDel (lowerStr u.username) s.usernameIndex⟩) := by
        rw [UserService.leave, Store.remove]
        show (match alGet id (alDel id s.users) with
          | some u2 => _
          | none => _) = _
        rw [hg2]
      rw [hj2]
      exact ⟨rfl, rfl⟩

/-- Claim C7 witness: leaving with an unknown connectionId c2 in the
one-user state {alice} is a no-op, and a repeated leave of c1 returns
absent. -/
theorem leave_unknown_noop_witness :
    UserService.leave stAlice strC2 = (none, stAlice) ∧
    (UserService.leave (UserService.leave stAlice strC1).2 strC1).1 = none :=
  ⟨((leave_unknown_noop stAlice strC2).1 (by decide)).1,
   ((leave_unknown_noop stAlice strC1).2 (by decide)).1⟩

/-- Claim C8: a chatMessage from a connection that never joined (no
user stored in socket.data and no registry entry for its id) produces
exactly one emission — a structured error with code USER_NOT_FOUND sent
to that socket alone — no room broadcast, and the registry unchanged. -/
theorem chatMessage_unknown_user (s : Store) (id msg : Str)
    (h : UserService.getById s id = none) :
    handleChatMessage s none id msg = (s, [.errorToSelf codeUserNotFound]) := by
  unfold handleChatMessage
  rw [h]

/-- Claim C8 witness: the handler applied in the empty registry. -/
theorem chatMessage_unknown_user_witness :
    handleChatMessage Store.emptyStore none strC1 strHi =
      (Store.emptyStore, [.errorToSelf codeUserNotFound]) :=
  chatMessage_unknown_user Store.emptyStore strC1 strHi (by decide)

/-- Claim C9: on a successful join the handler's emissions are exactly,
in order: the welcome to the joiner alone, then the user-joined notice
to the other members of the room, then the membership snapshot
(computed on the post-join registry, hence including the joiner) to the
whole room. -/
theorem joinRoom_emission_order (s : Store) (id rawU rawR n r : Str)
    (hn : usernameSchema rawU = .ok n) (hr : roomSchema rawR = .ok r)
    (hfree : s.findByUsername n = none) :
    handleJoinRoom s id rawU rawR =
      (s.add ⟨id, n, r⟩,
       [.msgToSelf .welcome,
        .msgToOthers r (.userJoined n),
        .roomUsersToRoom r (UserService.getRoomUsers (s.add ⟨id, n, r⟩) r)],
       some ⟨id, n, r⟩) := by
  rw [handleJoinRoom_ok s id rawU rawR n r hn hr]
  unfold UserService.join
  rw [hfree]

/-- Claim C9 witness: the join handler applied in the empty registry
with valid concrete inputs. -/
theorem joinRoom_emission_order_witness :
    handleJoinRoom Store.emptyStore strC1 strAlice strGeneral =
      (Store.emptyStore.add ⟨strC1, strAlice, strGeneral⟩,
       [.msgToSelf .welcome,
        .msgToOthers strGeneral (.userJoined strAlice),
        .roomUsersToRoom strGeneral
          (UserService.getRoomUsers
            (Store.emptyStore.add ⟨strC1, strAlice, strGeneral⟩) strGeneral)],
       some ⟨strC1, strAlice, strGeneral⟩) :=
  joinRoom_emission_order Store.emptyStore strC1 strAlice strGeneral
    strAlice strGeneral (by decide) (by decide) (by decide)

/-- Claim C10: roomMembers compares room labels after lowercasing both
sides, so any two labels equal up to ASCII case select the same member
list in every state; while activeRooms() collects the stored labels
verbatim — concretely, after joins into "Room" and "room" both labels
appear as separate activeRooms() entries yet denote the same nonempty
membership set. -/
theorem room_matching_case_insensitive :
    (∀ (s : Store) (r1 r2 : Str), lowerStr r1 = lowerStr r2 →
      UserService.getRoomUsers s r1 = UserService.getRoomUsers s r2) ∧
    (UserService.getActiveRooms stTwoRooms = [strRoomUp, strRoomLo] ∧
     UserService.getRoomUsers stTwoRooms strRoomUp =
       UserService.getRoomUsers stTwoRooms strRoomLo ∧
     UserService.getRoomUsers stTwoRooms strRoomUp ≠ []) := by
  constructor
  · intro s r1 r2 h
    unfold UserService.getRoomUsers Store.findByRoom
    rw [h]
  · exact ⟨by decide, by decide, by decide⟩

/-- Claim C10 witness: the general part applied at the two concrete
case-variant labels. -/
theorem room_matching_case_insensitive_witness :
    UserService.getRoomUsers stTwoRooms strRoomUp =
      UserService.getRoomUsers stTwoRooms strRoomLo :=
  room_matching_case_insensitive.1 stTwoRooms strRoomUp strRoomLo (by decide)

end Chat
